import Mathlib

/-!
A shallow embedding of the core of the `fqme` repository (FASTQ record index,
BGZF block-streaming reader, index/extract pipelines), together with proofs
about the embedded operations.

Conventions of the embedding:
* Rust `u64` values are modelled as `Nat`; subtractions that the Rust code
  performs on `u64` appear as truncated `Nat` subtraction, and the theorems
  establish the inequalities showing no underflow occurs where it matters.
* Byte streams are `List Nat` (each element a byte value).
* A parsed FASTQ record (the seq_io view of one record) is modelled with its
  four components, including the content of the `+` separator line after the
  `+` itself (`sep`), so that the exact on-disk serialization of the record
  is recoverable.
* Fallible operations return `Option`/`Except`.
-/

/-- One entry of the FASTQ record index
(`FastqIndexEntry` in `src/lib/tools/fastq_index.rs`): prefix counts of
records seen and bytes seen. -/
structure FastqIndexEntry where
  total_records : Nat
  total_bytes : Nat
deriving DecidableEq

/-- The FASTQ record index (`FastqIndex` in `src/lib/tools/fastq_index.rs`). -/
structure FastqIndex where
  total_records : Nat
  nth : Nat
  entries : List FastqIndexEntry
deriving DecidableEq

/-- A parsed FASTQ record as seq_io hands it to `from_reader`.  `head`, `seq`
and `qual` are the fields of the record; `sep` is the content of the `+`
separator line after the leading `+` (empty when the line is a bare `+`). -/
structure FastqRecord where
  head : List Nat
  seq : List Nat
  sep : List Nat
  qual : List Nat
deriving DecidableEq

/-- The exact on-disk bytes of a record, as the seq_io function `write_unchanged`
re-emits them: `@head\n seq\n +sep\n qual\n` (64 = `@`, 10 = newline,
43 = `+`).  The repository type `ByteCountingWriter` counts the length of this
byte sequence. -/
def writeUnchangedBytes (r : FastqRecord) : List Nat :=
  64 :: (r.head ++ 10 :: (r.seq ++ 10 :: (43 :: (r.sep ++ 10 :: (r.qual ++ [10])))))

/-- Model of `FastqIndex::record_to_num_bytes` (deprecated field-sum estimator in
`fastq_index.rs`): `1 + head + 1 + seq + 1 + 2 + qual + 1`.  It ignores any
comment on the `+` line. -/
def FastqIndex.record_to_num_bytes (r : FastqRecord) : Nat :=
  1 + r.head.length + 1 + r.seq.length + 1 + 2 + r.qual.length + 1

/-- The entry list produced by the builder loop of `FastqIndex::from_reader`
starting from running totals `tr` records / `tb` bytes: a checkpoint entry
whenever `tr % nth = 0`, and a final end-cap entry after the loop. -/
def entriesFrom (nth : Nat) : List FastqRecord → Nat → Nat → List FastqIndexEntry
  | [], tr, tb => [⟨tr, tb⟩]
  | r :: rs, tr, tb =>
    (if tr % nth = 0 then [⟨tr, tb⟩] else []) ++
      entriesFrom nth rs (tr + 1) (tb + (writeUnchangedBytes r).length)

/-- The loop of `FastqIndex::from_reader` (`fastq_index.rs`), with the
mutable state (`total_records`, `total_bytes`, `entries`) passed explicitly.
Each record size is measured as the length of its unchanged serialization
(`rec.write_unchanged(&mut byte_counter)` followed by `byte_counter.count()`). -/
def FastqIndex.from_readerGo (nth : Nat) :
    List FastqRecord → Nat → Nat → List FastqIndexEntry → FastqIndex
  | [], total_records, total_bytes, entries =>
    ⟨total_records, nth, entries ++ [⟨total_records, total_bytes⟩]⟩
  | r :: rs, total_records, total_bytes, entries =>
    FastqIndex.from_readerGo nth rs (total_records + 1)
      (total_bytes + (writeUnchangedBytes r).length)
      (if total_records % nth = 0 then entries ++ [⟨total_records, total_bytes⟩] else entries)

/-- Model of `FastqIndex::from_reader` applied to an already-tokenized record stream
(the FASTQ tokenizer is an external collaborator per the spec). -/
def FastqIndex.from_reader (records : List FastqRecord) (nth : Nat) : FastqIndex :=
  FastqIndex.from_readerGo nth records 0 0 []

/-- The first scan inside `FastqIndex::range` (`fastq_index.rs:213-222`):
walks `entries` keeping `start_byte` and `last_total_records` of every entry
whose `total_records` is below `start_record`; at the first entry at or past
`start_record` it sets `leading_records := (start_record - 1) % nth` and
stops, returning the not-yet-consumed suffix (the Rust code keeps the index
`start_entry` instead of the suffix). -/
def scanStartGo (nth start_record : Nat) :
    List FastqIndexEntry → Nat → Nat → Nat → Nat × Nat × Nat × List FastqIndexEntry
  | [], leading_records, start_byte, last_total_records =>
    (leading_records, start_byte, last_total_records, [])
  | e :: rest, leading_records, start_byte, last_total_records =>
    if start_record ≤ e.total_records then
      ((start_record - 1) % nth, start_byte, last_total_records, e :: rest)
    else
      scanStartGo nth start_record rest leading_records e.total_bytes e.total_records

/-- The second scan inside `FastqIndex::range` (`fastq_index.rs:225-234`):
from the suffix left by the first scan, find the first entry whose
`total_records` reaches `end_record` and read off `trailing_records`,
`end_byte` and `total_records` of the window.  If no entry qualifies the
initial values `(0, 0, 0)` are kept, as in the Rust loop. -/
def scanEndGo (end_record last_total_records : Nat) :
    List FastqIndexEntry → Nat × Nat × Nat
  | [] => (0, 0, 0)
  | e :: rest =>
    if end_record ≤ e.total_records then
      (e.total_records - end_record, e.total_bytes, e.total_records - last_total_records)
    else
      scanEndGo end_record last_total_records rest

/-- The query result (`FastqIndexRange` in `fastq_index.rs`). -/
structure FastqIndexRange where
  start_byte : Nat
  end_byte : Nat
  leading_records : Nat
  trailing_records : Nat
  total_records : Nat
deriving DecidableEq

/-- Model of `FastqIndexRange::selected_records`. -/
def FastqIndexRange.selected_records (r : FastqIndexRange) : Nat :=
  r.total_records - r.leading_records - r.trailing_records

/-- Model of `FastqIndexRange::num_bytes`. -/
def FastqIndexRange.num_bytes (r : FastqIndexRange) : Nat :=
  r.end_byte - r.start_byte

/-- Model of `FastqIndex::range` (`fastq_index.rs:194-243`), including its
normalization recursion.  `start_record` and `end_record` are 1-based
inclusive. -/
def FastqIndex.range (idx : FastqIndex) (start_record end_record : Nat) :
    Option FastqIndexRange :=
  if end_record < start_record ∨ end_record < 1 ∨ idx.total_records < start_record then
    none
  else if start_record < 1 then
    idx.range 1 end_record
  else if idx.total_records < end_record then
    idx.range start_record idx.total_records
  else
    match scanStartGo idx.nth start_record idx.entries (start_record - 1) 0 0 with
    | (leading_records, start_byte, last_total_records, rest) =>
      match scanEndGo end_record last_total_records rest with
      | (trailing_records, end_byte, total_records) =>
        some ⟨start_byte, end_byte, leading_records, trailing_records, total_records⟩
termination_by
  (if start_record < 1 then 1 else 0) + (if idx.total_records < end_record then 1 else 0)
decreasing_by
  · split_ifs <;> omega
  · split_ifs <;> omega

/-- Modelled from the spec and the wording of claim C7: the `total_records` of the
last index entry strictly below `start_record` (0 when there is none).  This
is the reference value the subtractive `leading_records` formulation
`start_record - last_total - 1` is stated against. -/
def lastTotalBelow (es : List FastqIndexEntry) (start_record : Nat) : Nat :=
  es.foldl (fun acc e => if e.total_records < start_record then e.total_records else acc) 0

/-- The shape invariant of a built entry list: totals strictly increase by at
most `nth` per step, every non-final total is a multiple of `nth`, and byte
counts are monotone. -/
def EntChain (nth : Nat) : List FastqIndexEntry → Prop
  | [] => True
  | [_] => True
  | a :: b :: rest =>
    a.total_records < b.total_records ∧ b.total_records ≤ a.total_records + nth ∧
      a.total_records % nth = 0 ∧ a.total_bytes ≤ b.total_bytes ∧ EntChain nth (b :: rest)

/-- Little-endian encoding of a `u64` value as 8 bytes, as produced by
`write_u64::<LittleEndian>`.  The divisors are 256^1 .. 256^7. -/
def u64le (n : Nat) : List Nat :=
  [n % 256, n / 256 % 256, n / 65536 % 256, n / 16777216 % 256,
   n / 4294967296 % 256, n / 1099511627776 % 256,
   n / 281474976710656 % 256, n / 72057594037927936 % 256]

/-- The value read back by `read_u64::<LittleEndian>` from 8 bytes. -/
def leVal (b0 b1 b2 b3 b4 b5 b6 b7 : Nat) : Nat :=
  b0 + 256 * b1 + 65536 * b2 + 16777216 * b3 + 4294967296 * b4 +
    1099511627776 * b5 + 281474976710656 * b6 + 72057594037927936 * b7

/-- The entry loop of `FastqIndex::write`: two u64 LE per entry. -/
def writeEntries : List FastqIndexEntry → List Nat
  | [] => []
  | e :: rest => u64le e.total_records ++ u64le e.total_bytes ++ writeEntries rest

/-- Model of `FastqIndex::write` (`fastq_index.rs:160-171`): `total_records` (u64 LE),
`nth` (u64 LE), then each entry as two u64 LE. -/
def FastqIndex.write (idx : FastqIndex) : List Nat :=
  u64le idx.total_records ++ u64le idx.nth ++ writeEntries idx.entries

/-- The entry loop of `FastqIndex::read`: `while let Ok(nr) = read_u64 { let
tb = read_u64?; push }`.  A tail shorter than 8 bytes ends the loop normally;
a failure on the second u64 of a pair is an error. -/
def read_entriesGo : List Nat → List FastqIndexEntry → Option (List FastqIndexEntry)
  | b0 :: b1 :: b2 :: b3 :: b4 :: b5 :: b6 :: b7 :: rest, acc =>
    match rest with
    | c0 :: c1 :: c2 :: c3 :: c4 :: c5 :: c6 :: c7 :: rest2 =>
      read_entriesGo rest2
        (acc ++ [⟨leVal b0 b1 b2 b3 b4 b5 b6 b7, leVal c0 c1 c2 c3 c4 c5 c6 c7⟩])
    | _ => none
  | _, acc => some acc

/-- Model of `FastqIndex::read` (`fastq_index.rs:69-80`): `total_records`, `nth`, then
entry pairs until end of input. -/
def FastqIndex.read (bytes : List Nat) : Option FastqIndex :=
  match bytes with
  | b0 :: b1 :: b2 :: b3 :: b4 :: b5 :: b6 :: b7 :: rest =>
    match rest with
    | c0 :: c1 :: c2 :: c3 :: c4 :: c5 :: c6 :: c7 :: rest2 =>
      (read_entriesGo rest2 []).map fun entries =>
        ⟨leVal b0 b1 b2 b3 b4 b5 b6 b7, leVal c0 c1 c2 c3 c4 c5 c6 c7, entries⟩
    | _ => none
  | _ => none

/-- The checkpoint pairs `(num_records, total_bytes)` emitted by the `index`
subcommand function `run` (`src/lib/tools/index.rs:32-82`), including the final pair
written after the loop.  Record sizes use the inline field-sum formula of
`index.rs` (same as `record_to_num_bytes`). -/
def indexRunEntries (nth : Nat) : List FastqRecord → Nat → Nat → List (Nat × Nat)
  | [], num_records, total_bytes => [(num_records, total_bytes)]
  | r :: rs, num_records, total_bytes =>
    (if num_records % nth = 0 then [(num_records, total_bytes)] else []) ++
      indexRunEntries nth rs (num_records + 1)
        (total_bytes + (1 + r.head.length + 1 + r.seq.length + 1 + 2 + r.qual.length + 1))

/-- The byte stream the `run` function of the `index` subcommand writes to the `.fqi` file:
for each record whose ordinal is a multiple of `nth` it writes
`num_records`/`total_bytes` as two u64 LE, and after the loop it writes the
final totals.  Note that it writes no `total_records`/`nth` header. -/
def indexRunGo (nth : Nat) : List FastqRecord → Nat → Nat → List Nat
  | [], num_records, total_bytes => u64le num_records ++ u64le total_bytes
  | r :: rs, num_records, total_bytes =>
    (if num_records % nth = 0 then u64le num_records ++ u64le total_bytes else []) ++
      indexRunGo nth rs (num_records + 1)
        (total_bytes + (1 + r.head.length + 1 + r.seq.length + 1 + 2 + r.qual.length + 1))

/-- The `.fqi` bytes persisted by the `index` subcommand for a record stream. -/
def indexRunBytes (records : List FastqRecord) (nth : Nat) : List Nat :=
  indexRunGo nth records 0 0

/-- The state of `BgzfReader` (`src/lib/tools/extract.rs:97-107`).  The
compressed file tail together with the per-block decode of §4.4 is abstracted
as `blocks`: the list of decompressed contents of the BGZF blocks that remain
in the file after the initial seek.  `uncompressed_data` and
`uncompressed_data_index` are the current buffer and cursor;
`num_blocks_left` is the block budget the constructor receives. -/
structure BgzfReaderState where
  blocks : List (List Nat)
  uncompressed_data : List Nat
  uncompressed_data_index : Nat
  num_blocks_left : Nat
deriving DecidableEq

/-- Model of `BgzfReader::bytes_available`. -/
def BgzfReaderState.bytes_available (s : BgzfReaderState) : Nat :=
  s.uncompressed_data.length - s.uncompressed_data_index

/-- Model of `BgzfReader::fill` (`extract.rs:153-194`).  If bytes are available it
returns their count; if the budget is 0 it returns 0; otherwise it decodes
the next block into the buffer and returns its length.  When the header read
hits end-of-file (no block left) `read_exact` fails with `UnexpectedEof`,
which the `?` operator propagates: that is the `Except.error` case.  Note
that, as in the source, `num_blocks_left` is never decremented. -/
def BgzfReaderState.fill (s : BgzfReaderState) : Except Unit (Nat × BgzfReaderState) :=
  if 0 < s.bytes_available then Except.ok (s.bytes_available, s)
  else if s.num_blocks_left = 0 then Except.ok (0, s)
  else
    match s.blocks with
    | [] => Except.error ()
    | b :: rest =>
      Except.ok (b.length,
        { blocks := rest, uncompressed_data := b, uncompressed_data_index := 0,
          num_blocks_left := s.num_blocks_left })

/-- Model of the `Read` impl of `BgzfReader` (`extract.rs:197-213`) serving `n` bytes.
Per requested byte: if no bytes are available, call `fill`; only a result of
`Ok(0)` returns early with the bytes served so far (`if let Ok(0) = ...`).
On `Err` the code falls through and indexes `uncompressed_data` at the
(out-of-bounds) cursor, which aborts the program: modelled as `none`, as is
any other out-of-bounds index. -/
def BgzfReaderState.read : Nat → BgzfReaderState → Option (List Nat × BgzfReaderState)
  | 0, s => some ([], s)
  | n + 1, s =>
    if s.bytes_available = 0 then
      match s.fill with
      | Except.ok (0, s1) => some ([], s1)
      | Except.ok (_ + 1, s1) =>
        match s1.uncompressed_data.get? s1.uncompressed_data_index with
        | none => none
        | some b =>
          (BgzfReaderState.read n
            { s1 with uncompressed_data_index := s1.uncompressed_data_index + 1 }).map
            fun q => (b :: q.1, q.2)
      | Except.error _ => none
    else
      match s.uncompressed_data.get? s.uncompressed_data_index with
      | none => none
      | some b =>
        (BgzfReaderState.read n
          { s with uncompressed_data_index := s.uncompressed_data_index + 1 }).map
          fun q => (b :: q.1, q.2)

/-- The priming loop of `BgzfReader::new` (`extract.rs:133-145`), entered
with the current buffer exhausted (`prev_data` with the cursor at its end):
each outer iteration calls `fill` — which, budget permitting, replaces the
buffer with the next block — then scans the buffer for the byte `@` (64).
It stops with the cursor on the first `@` found, or when `fill` returns 0
(budget 0, or an empty block).  When `fill` fails because the compressed
stream is exhausted, the `unwrap` in `new` aborts the program: `none`. -/
def primeLoop (num_blocks_left : Nat) :
    List (List Nat) → List Nat → Option BgzfReaderState
  | blocks, prev_data =>
    if num_blocks_left = 0 then
      some ⟨blocks, prev_data, prev_data.length, num_blocks_left⟩
    else
      match blocks with
      | [] => none
      | b :: rest =>
        if b.length = 0 then some ⟨rest, b, 0, num_blocks_left⟩
        else
          if (b.takeWhile (fun x => x != 64)).length < b.length then
            some ⟨rest, b, (b.takeWhile (fun x => x != 64)).length, num_blocks_left⟩
          else primeLoop num_blocks_left rest b

/-- Model of `BgzfReader::new` (`extract.rs:110-147`) after the seek to the block
boundary: starts with an empty buffer, cursor 0 and the given block budget,
then runs the priming loop that skips data until a `@` byte or end of data. -/
def BgzfReader.new (blocks : List (List Nat)) (num_blocks : Nat) : Option BgzfReaderState :=
  primeLoop num_blocks blocks []

/-- One `.gzi` entry (`BgzfIndexOffset` in `extract.rs`). -/
structure BgzfIndexOffset where
  compressed_offset : Nat
  uncompressed_offset : Nat
deriving DecidableEq

/-- The `.gzi` scan inside `extract::run` (`extract.rs:62-73`): for each
entry, keep it as `start_entry` when its `uncompressed_offset` is strictly
below `start_byte`, count it in `num_blocks`, and stop at the first entry
whose `uncompressed_offset` reaches `num_bytes` (the call site passes
`fqi_range.num_bytes`, not the absolute end offset). -/
def locateGo (start_byte num_bytes : Nat) :
    BgzfIndexOffset → Nat → List BgzfIndexOffset → BgzfIndexOffset × Nat
  | start_entry, num_blocks, [] => (start_entry, num_blocks)
  | start_entry, num_blocks, entry :: rest =>
    let start_entry2 := if entry.uncompressed_offset < start_byte then entry else start_entry
    if num_bytes ≤ entry.uncompressed_offset then (start_entry2, num_blocks + 1)
    else locateGo start_byte num_bytes start_entry2 (num_blocks + 1) rest

/-- The whole block-location step of `extract::run`: `start_entry` is seeded
with `gzi.entries[0]` and `num_blocks` with 0 before the scan. -/
def runLocateBlocks (entries : List BgzfIndexOffset) (start_byte num_bytes : Nat) :
    BgzfIndexOffset × Nat :=
  locateGo start_byte num_bytes (entries.headD ⟨0, 0⟩) 0 entries

/-- The record fixture of the spec (§8.3): head `some-read-name`, seq `GATTACA`,
bare `+` line, qual `IIIIIII`; 34 serialized bytes. -/
def recFix : FastqRecord :=
  ⟨[115, 111, 109, 101, 45, 114, 101, 97, 100, 45, 110, 97, 109, 101],
   [71, 65, 84, 84, 65, 67, 65], [], [73, 73, 73, 73, 73, 73, 73]⟩

/-- The `+`-line-comment fixture of the spec: the 16-byte input
`@r\nA\n+comment\nI\n` (head `r`, seq `A`, separator comment `comment`,
qual `I`). -/
def recComment : FastqRecord :=
  ⟨[114], [65], [99, 111, 109, 109, 101, 110, 116], [73]⟩

/-- Eight copies of the fixture record: the index scenario of spec §8.3. -/
def recs8 : List FastqRecord := List.replicate 8 recFix

/-! ### Helper lemmas about lists -/

theorem drop_length_takeWhile (p : Nat → Bool) (l : List Nat) :
    l.drop (l.takeWhile p).length = l.dropWhile p := by
  induction l with
  | nil => rfl
  | cons x xs ih =>
    cases hp : p x with
    | true => simpa [List.takeWhile_cons, List.dropWhile_cons, hp] using ih
    | false => simp [List.takeWhile_cons, List.dropWhile_cons, hp]

theorem takeWhile_lt_get (p : Nat → Bool) (l : List Nat)
    (h : (l.takeWhile p).length < l.length) :
    ∃ x, l.get? (l.takeWhile p).length = some x ∧ p x = false := by
  induction l with
  | nil => simp at h
  | cons y ys ih =>
    cases hp : p y with
    | true =>
      simp only [List.takeWhile_cons, hp, if_true, List.length_cons, List.get?] at h ⊢
      exact ih (by omega)
    | false =>
      exact ⟨y, by simp [List.takeWhile_cons, hp], hp⟩

theorem takeWhile_full_all (p : Nat → Bool) (l : List Nat)
    (h : ¬ (l.takeWhile p).length < l.length) :
    ∀ x ∈ l, p x = true := by
  induction l with
  | nil => simp
  | cons y ys ih =>
    cases hp : p y with
    | true =>
      intro x hx
      rcases List.mem_cons.mp hx with hx | hx
      · simpa [hx] using hp
      · refine ih ?_ x hx
        simp only [List.takeWhile_cons, hp, if_true, List.length_cons] at h
        omega
    | false =>
      exfalso
      simp [List.takeWhile_cons, hp] at h

theorem dropWhile_append_lt (p : Nat → Bool) (l t : List Nat)
    (h : (l.takeWhile p).length < l.length) :
    (l ++ t).dropWhile p = l.dropWhile p ++ t := by
  induction l with
  | nil => simp at h
  | cons y ys ih =>
    cases hp : p y with
    | true =>
      simp only [List.takeWhile_cons, hp, if_true, List.length_cons] at h
      simpa [List.dropWhile_cons, hp] using ih (by omega)
    | false => simp [List.dropWhile_cons, hp]

theorem dropWhile_append_all (p : Nat → Bool) (l t : List Nat)
    (h : ∀ x ∈ l, p x = true) :
    (l ++ t).dropWhile p = t.dropWhile p := by
  induction l with
  | nil => simp
  | cons y ys ih =>
    have hy : p y = true := h y (by simp)
    simp only [List.cons_append, List.dropWhile_cons, hy, if_true]
    exact ih fun x hx => h x (by simp [hx])

theorem mem_of_append_singleton {α : Type} (pre : List α) (a : α) (l : List α)
    (h : l = pre ++ [a]) : a ∈ l := by
  subst h; simp

/-! ### Structure of the entry list built by `from_reader` -/

theorem from_readerGo_eq (nth : Nat) (rs : List FastqRecord) :
    ∀ (tr tb : Nat) (es : List FastqIndexEntry),
      FastqIndex.from_readerGo nth rs tr tb es =
        ⟨tr + rs.length, nth, es ++ entriesFrom nth rs tr tb⟩ := by
  induction rs with
  | nil => intro tr tb es; simp [FastqIndex.from_readerGo, entriesFrom]
  | cons r rs ih =>
    intro tr tb es
    simp only [FastqIndex.from_readerGo, entriesFrom, ih, List.length_cons,
      FastqIndex.mk.injEq]
    refine ⟨by omega, trivial, ?_⟩
    by_cases h : tr % nth = 0 <;> simp [h, List.append_assoc]

theorem from_reader_total (records : List FastqRecord) (nth : Nat) :
    (FastqIndex.from_reader records nth).total_records = records.length := by
  simp [FastqIndex.from_reader, from_readerGo_eq]

theorem from_reader_nth (records : List FastqRecord) (nth : Nat) :
    (FastqIndex.from_reader records nth).nth = nth := by
  simp [FastqIndex.from_reader, from_readerGo_eq]

theorem from_reader_entries (records : List FastqRecord) (nth : Nat) :
    (FastqIndex.from_reader records nth).entries = entriesFrom nth records 0 0 := by
  simp [FastqIndex.from_reader, from_readerGo_eq]

theorem entriesFrom_head (nth : Nat) (rs : List FastqRecord) :
    ∀ (tr tb : Nat),
      ∃ e tail,
        entriesFrom nth rs tr tb = e :: tail ∧
        tr ≤ e.total_records ∧ e.total_records ≤ tr + rs.length ∧
        tb ≤ e.total_bytes ∧
        ∀ t, tr ≤ t → t < e.total_records → t % nth ≠ 0 := by
  induction rs with
  | nil =>
    intro tr tb
    refine ⟨⟨tr, tb⟩, [], by simp [entriesFrom], le_refl _, by simp, le_refl _, ?_⟩
    intro t h1 h2
    simp only at h2
    omega
  | cons r rs ih =>
    intro tr tb
    by_cases h : tr % nth = 0
    · refine ⟨⟨tr, tb⟩, entriesFrom nth rs (tr + 1) (tb + (writeUnchangedBytes r).length),
        by simp [entriesFrom, h], le_refl _, by simp, le_refl _, ?_⟩
      intro t h1 h2
      simp only at h2
      omega
    · obtain ⟨e, tail, heq, h1, h2, h3, h4⟩ := ih (tr + 1) (tb + (writeUnchangedBytes r).length)
      refine ⟨e, tail, by simp [entriesFrom, h, heq], by omega,
        by simp only [List.length_cons]; omega, by omega, ?_⟩
      intro t ht1 ht2
      rcases Nat.eq_or_lt_of_le ht1 with h5 | h5
      · subst h5; exact h
      · exact h4 t h5 ht2

theorem entriesFrom_chain (nth : Nat) (hnth : 0 < nth) (rs : List FastqRecord) :
    ∀ (tr tb : Nat), EntChain nth (entriesFrom nth rs tr tb) := by
  induction rs with
  | nil => intro tr tb; simp [entriesFrom, EntChain]
  | cons r rs ih =>
    intro tr tb
    by_cases h : tr % nth = 0
    · obtain ⟨e, tail, heq, h1, h2, h3, h4⟩ :=
        entriesFrom_head nth rs (tr + 1) (tb + (writeUnchangedBytes r).length)
      have hchain := ih (tr + 1) (tb + (writeUnchangedBytes r).length)
      rw [heq] at hchain
      have hle : e.total_records ≤ tr + nth := by
        by_contra hgt
        exact h4 (tr + nth) (by omega) (by omega) (by simp [Nat.add_mod_right, h])
      simp only [entriesFrom, h, if_true, List.singleton_append, heq]
      exact ⟨h1, hle, h, le_trans (Nat.le_add_right tb _) h3, hchain⟩
    · simpa [entriesFrom, h] using ih (tr + 1) (tb + (writeUnchangedBytes r).length)

theorem entriesFrom_last (nth : Nat) (rs : List FastqRecord) :
    ∀ (tr tb : Nat), ∃ pre bfin,
      entriesFrom nth rs tr tb = pre ++ [⟨tr + rs.length, bfin⟩] := by
  induction rs with
  | nil => intro tr tb; exact ⟨[], tb, by simp [entriesFrom]⟩
  | cons r rs ih =>
    intro tr tb
    obtain ⟨pre, bfin, heq⟩ := ih (tr + 1) (tb + (writeUnchangedBytes r).length)
    refine ⟨(if tr % nth = 0 then [⟨tr, tb⟩] else []) ++ pre, bfin, ?_⟩
    have h2 : tr + 1 + rs.length = tr + (r :: rs).length := by
      simp only [List.length_cons]
      omega
    rw [entriesFrom, heq, ← h2, List.append_assoc]

theorem EntChain_tail (nth : Nat) (a : FastqIndexEntry) (l : List FastqIndexEntry)
    (h : EntChain nth (a :: l)) : EntChain nth l := by
  cases l with
  | nil => trivial
  | cons b rest => exact h.2.2.2.2

theorem EntChain_lt (nth : Nat) (l : List FastqIndexEntry) :
    ∀ (a : FastqIndexEntry), EntChain nth (a :: l) →
      ∀ x ∈ l, a.total_records < x.total_records := by
  induction l with
  | nil => intro a _ x hx; simp at hx
  | cons b rest ih =>
    intro a h x hx
    rcases List.mem_cons.mp hx with hx | hx
    · subst hx; exact h.1
    · exact lt_trans h.1 (ih b h.2.2.2.2 x hx)

/-! ### Behaviour of the two scans of `FastqIndex::range` on a built entry
list -/

theorem scanStartGo_spec (nth s : Nat) (es : List FastqIndexEntry) :
    ∀ (prev : FastqIndexEntry) (L0 : Nat),
      EntChain nth (prev :: es) →
      prev.total_records < s →
      prev.total_records % nth = 0 →
      (∃ x ∈ es, s ≤ x.total_records) →
      ∃ (p hd : FastqIndexEntry) (rest pre : List FastqIndexEntry),
        scanStartGo nth s es L0 prev.total_bytes prev.total_records =
          ((s - 1) % nth, p.total_bytes, p.total_records, hd :: rest) ∧
        EntChain nth (p :: hd :: rest) ∧
        p.total_records < s ∧ s ≤ hd.total_records ∧
        p.total_records % nth = 0 ∧
        (s - 1) % nth = s - p.total_records - 1 ∧
        prev :: es = pre ++ p :: hd :: rest ∧
        (∀ x ∈ pre, x.total_records < s) := by
  induction es with
  | nil =>
    intro prev L0 _ _ _ hS
    simp at hS
  | cons a es2 ih =>
    intro prev L0 hchain hlt hmod hS
    by_cases hbreak : s ≤ a.total_records
    · refine ⟨prev, a, es2, [], ?_, hchain, hlt, hbreak, hmod, ?_, by simp, by simp⟩
      · simp [scanStartGo, hbreak]
      · have hgap : a.total_records ≤ prev.total_records + nth := hchain.2.1
        obtain ⟨q, hq⟩ : ∃ q, prev.total_records = q * nth :=
          ⟨prev.total_records / nth, (Nat.div_mul_cancel (Nat.dvd_of_mod_eq_zero hmod)).symm⟩
        have h1 : s - 1 = (s - 1 - q * nth) + q * nth := by omega
        rw [h1, Nat.add_mul_mod_self_right, Nat.mod_eq_of_lt (by omega)]
        omega
    · have hlt2 : a.total_records < s := by omega
      have hchain2 : EntChain nth (a :: es2) := EntChain_tail nth prev _ hchain
      have hS2 : ∃ x ∈ es2, s ≤ x.total_records := by
        obtain ⟨x, hx, hxs⟩ := hS
        rcases List.mem_cons.mp hx with h | h
        · subst h; omega
        · exact ⟨x, h, hxs⟩
      have hmod2 : a.total_records % nth = 0 := by
        cases es2 with
        | nil =>
          obtain ⟨x, hx, _⟩ := hS2
          simp at hx
        | cons c es3 => exact hchain2.2.2.1
      obtain ⟨p, hd, rest, pre, r1, r2, r3, r4, r5, r6, r7, r8⟩ :=
        ih a L0 hchain2 hlt2 hmod2 hS2
      refine ⟨p, hd, rest, prev :: pre, ?_, r2, r3, r4, r5, r6, ?_, ?_⟩
      · simpa [scanStartGo, hbreak] using r1
      · rw [List.cons_append, ← r7]
      · intro x hx
        rcases List.mem_cons.mp hx with h | h
        · subst h; exact hlt
        · exact r8 x h

theorem scanEndGo_spec (nth eRec lt : Nat) (es : List FastqIndexEntry) :
    EntChain nth es →
    (∃ x ∈ es, eRec ≤ x.total_records) →
    ∃ (hE hd : FastqIndexEntry) (rest2 : List FastqIndexEntry),
      es = hd :: rest2 ∧
      scanEndGo eRec lt es =
        (hE.total_records - eRec, hE.total_bytes, hE.total_records - lt) ∧
      eRec ≤ hE.total_records ∧
      hd.total_bytes ≤ hE.total_bytes ∧ hd.total_records ≤ hE.total_records := by
  induction es with
  | nil => intro _ hS; simp at hS
  | cons a rest ih =>
    intro hchain hS
    by_cases hbreak : eRec ≤ a.total_records
    · exact ⟨a, a, rest, rfl, by simp [scanEndGo, hbreak], hbreak, le_refl _, le_refl _⟩
    · have hS2 : ∃ x ∈ rest, eRec ≤ x.total_records := by
        obtain ⟨x, hx, hxs⟩ := hS
        rcases List.mem_cons.mp hx with h | h
        · subst h; omega
        · exact ⟨x, h, hxs⟩
      obtain ⟨hE, hd2, rest3, heq, hscan, h1, h2, h3⟩ :=
        ih (EntChain_tail nth a rest hchain) hS2
      have hab : a.total_bytes ≤ hd2.total_bytes ∧ a.total_records < hd2.total_records := by
        rw [heq] at hchain
        exact ⟨hchain.2.2.2.1, hchain.1⟩
      exact ⟨hE, a, rest, rfl, by simpa [scanEndGo, hbreak] using hscan, h1,
        le_trans hab.1 h2, le_trans (le_of_lt hab.2) h3⟩

theorem foldl_ltb_nochange (s : Nat) (l : List FastqIndexEntry)
    (h : ∀ x ∈ l, ¬ x.total_records < s) :
    ∀ acc, l.foldl (fun acc e => if e.total_records < s then e.total_records else acc) acc
      = acc := by
  induction l with
  | nil => intro acc; rfl
  | cons a l2 ih =>
    intro acc
    have ha : ¬ a.total_records < s := h a (by simp)
    simp only [List.foldl_cons, if_neg ha]
    exact ih (fun x hx => h x (by simp [hx])) acc

theorem lastTotalBelow_split (s : Nat) (pre : List FastqIndexEntry) (p : FastqIndexEntry)
    (suf : List FastqIndexEntry) (hp : p.total_records < s)
    (hsuf : ∀ x ∈ suf, ¬ x.total_records < s) :
    lastTotalBelow (pre ++ p :: suf) s = p.total_records := by
  unfold lastTotalBelow
  have h2 : pre ++ p :: suf = (pre ++ [p]) ++ suf := by simp
  rw [h2, List.foldl_append, foldl_ltb_nochange s suf hsuf, List.foldl_append]
  simp [hp]

/-! ### Inversion of the normalization recursion of `range`, and the master
description of `range` on a built index -/

theorem range_some_norm (idx : FastqIndex) (s e : Nat) (r : FastqIndexRange)
    (h : idx.range s e = some r) :
    1 ≤ max 1 s ∧ max 1 s ≤ min idx.total_records e ∧
      min idx.total_records e ≤ idx.total_records ∧
      idx.range (max 1 s) (min idx.total_records e) = some r := by
  rw [FastqIndex.range.eq_def] at h
  by_cases h1 : e < s ∨ e < 1 ∨ idx.total_records < s
  · rw [if_pos h1] at h
    exact absurd h (by simp)
  · rw [if_neg h1] at h
    push_neg at h1
    obtain ⟨hse, he1, hsN⟩ := h1
    by_cases h2 : s < 1
    · rw [if_pos h2] at h
      rw [FastqIndex.range.eq_def] at h
      by_cases h3 : e < 1 ∨ e < 1 ∨ idx.total_records < 1
      · rw [if_pos h3] at h
        exact absurd h (by simp)
      · rw [if_neg h3] at h
        push_neg at h3
        have hN : 1 ≤ idx.total_records := h3.2.2
        rw [if_neg (by omega)] at h
        by_cases h4 : idx.total_records < e
        · rw [if_pos h4] at h
          have hmax : max 1 s = 1 := by omega
          have hmin : min idx.total_records e = idx.total_records := by omega
          rw [hmax, hmin]
          exact ⟨le_refl 1, by omega, by omega, h⟩
        · rw [if_neg h4] at h
          have hmax : max 1 s = 1 := by omega
          have hmin : min idx.total_records e = e := by omega
          rw [hmax, hmin]
          refine ⟨le_refl 1, by omega, by omega, ?_⟩
          rw [FastqIndex.range.eq_def, if_neg (by omega), if_neg (by omega), if_neg h4]
          exact h
    · rw [if_neg h2] at h
      by_cases h3 : idx.total_records < e
      · rw [if_pos h3] at h
        have hmax : max 1 s = s := by omega
        have hmin : min idx.total_records e = idx.total_records := by omega
        rw [hmax, hmin]
        exact ⟨by omega, by omega, by omega, h⟩
      · rw [if_neg h3] at h
        have hmax : max 1 s = s := by omega
        have hmin : min idx.total_records e = e := by omega
        rw [hmax, hmin]
        refine ⟨by omega, by omega, by omega, ?_⟩
        rw [FastqIndex.range.eq_def, if_neg (by omega), if_neg h2, if_neg h3]
        exact h

theorem range_built_spec (records : List FastqRecord) (nth s e : Nat) (hnth : 0 < nth)
    (hs : 1 ≤ s) (hse : s ≤ e) (he : e ≤ records.length) :
    ∃ p hE : FastqIndexEntry,
      (FastqIndex.from_reader records nth).range s e =
        some ⟨p.total_bytes, hE.total_bytes, (s - 1) % nth,
          hE.total_records - e, hE.total_records - p.total_records⟩ ∧
      p.total_records < s ∧ e ≤ hE.total_records ∧
      (s - 1) % nth = s - p.total_records - 1 ∧
      p.total_bytes ≤ hE.total_bytes ∧
      p.total_records = lastTotalBelow (FastqIndex.from_reader records nth).entries s := by
  cases records with
  | nil => simp at he; omega
  | cons r0 rs0 =>
    have hsplit : entriesFrom nth (r0 :: rs0) 0 0 =
        FastqIndexEntry.mk 0 0 :: entriesFrom nth rs0 1 (0 + (writeUnchangedBytes r0).length) := by
      simp [entriesFrom, Nat.zero_mod]
    set tailE := entriesFrom nth rs0 1 (0 + (writeUnchangedBytes r0).length) with htail
    have hchain : EntChain nth (FastqIndexEntry.mk 0 0 :: tailE) := by
      rw [← hsplit]
      exact entriesFrom_chain nth hnth (r0 :: rs0) 0 0
    obtain ⟨pre0, bf, hlast⟩ := entriesFrom_last nth (r0 :: rs0) 0 0
    have hN : (0 : Nat) + (r0 :: rs0).length = (r0 :: rs0).length := by omega
    rw [hN] at hlast
    have hNe : 1 ≤ (r0 :: rs0).length := by simp
    have hlastMem : FastqIndexEntry.mk (r0 :: rs0).length bf ∈ tailE := by
      rw [hsplit] at hlast
      cases pre0 with
      | nil =>
        exfalso
        simp only [List.nil_append, List.cons.injEq, FastqIndexEntry.mk.injEq] at hlast
        obtain ⟨⟨h01, _⟩, _⟩ := hlast
        omega
      | cons q pre1 =>
        have := congrArg List.tail hlast
        simp only [List.cons_append, List.tail_cons] at this
        exact mem_of_append_singleton pre1 _ _ this
    have hS : ∃ x ∈ tailE, s ≤ x.total_records :=
      ⟨FastqIndexEntry.mk (r0 :: rs0).length bf, hlastMem, by simpa using le_trans hse he⟩
    obtain ⟨p, hd, rest, pre, r1, r2, r3, r4, r5, r6, r7, r8⟩ :=
      scanStartGo_spec nth s tailE (FastqIndexEntry.mk 0 0) (s - 1) hchain
        (by simpa using hs) (by simp) hS
    rw [FastqIndex.range.eq_def, from_reader_total, from_reader_nth, from_reader_entries]
    rw [if_neg (by omega), if_neg (by omega), if_neg (by omega)]
    rw [hsplit]
    have hstep : scanStartGo nth s (FastqIndexEntry.mk 0 0 :: tailE) (s - 1) 0 0 =
        scanStartGo nth s tailE (s - 1) (FastqIndexEntry.mk 0 0).total_bytes
          (FastqIndexEntry.mk 0 0).total_records := by
      simp only [scanStartGo]
      rw [if_neg (Nat.not_le.mpr hs)]
    rw [hstep, r1]
    have hchain2 : EntChain nth (hd :: rest) := EntChain_tail nth p _ r2
    have hS2 : ∃ x ∈ hd :: rest, e ≤ x.total_records := by
      refine ⟨FastqIndexEntry.mk (r0 :: rs0).length bf, ?_, by simpa using he⟩
      have hmem2 : FastqIndexEntry.mk (r0 :: rs0).length bf ∈ pre ++ p :: hd :: rest := by
        rw [← r7]
        exact List.mem_cons_of_mem _ hlastMem
      rcases List.mem_append.mp hmem2 with hmem3 | hmem3
      · exfalso
        have hbad : (r0 :: rs0).length < s := r8 _ hmem3
        omega
      · rcases List.mem_cons.mp hmem3 with hmem4 | hmem4
        · exfalso
          have hbad : (r0 :: rs0).length < s := by rw [← hmem4] at r3; exact r3
          omega
        · exact hmem4
    obtain ⟨hE, hd2, rest3, heq2, hscan2, hge2, hb2, ht2⟩ :=
      scanEndGo_spec nth e p.total_records (hd :: rest) hchain2 hS2
    dsimp only
    rw [hscan2]
    dsimp only
    have hdEq : hd2 = hd := ((List.cons.injEq _ _ _ _).mp heq2.symm).1
    refine ⟨p, hE, rfl, r3, hge2, r6, ?_, ?_⟩
    · exact le_trans r2.2.2.2.1 (hdEq ▸ hb2)
    · rw [r7]
      refine (lastTotalBelow_split s pre p (hd :: rest) r3 ?_).symm
      intro x hx
      rcases List.mem_cons.mp hx with hx2 | hx2
      · subst hx2; omega
      · have := EntChain_lt nth rest hd hchain2 x hx2
        omega

/-! ### Claims C1, C7, C10 -/

/-- Claim C1: for every FASTQ index built by the build algorithm
(`from_reader` with stride `nth ≥ 1`) and every pair `(start, end)` with
`1 ≤ start ≤ end ≤ total_records`, `range start end` returns `some r` with
`r.selected_records = end - start + 1`, where `selected_records` is
`total_records - leading_records - trailing_records`. -/
theorem range_soundness (records : List FastqRecord) (nth s e : Nat)
    (hnth : 0 < nth) (hs : 1 ≤ s) (hse : s ≤ e)
    (he : e ≤ (FastqIndex.from_reader records nth).total_records) :
    ∃ r, (FastqIndex.from_reader records nth).range s e = some r ∧
      r.selected_records = e - s + 1 := by
  rw [from_reader_total] at he
  obtain ⟨p, hE, heq, h1, h2, h3, _, _⟩ := range_built_spec records nth s e hnth hs hse he
  refine ⟨_, heq, ?_⟩
  simp only [FastqIndexRange.selected_records]
  rw [h3]
  omega

/-- Witness for C1: the spec §8.3 scenario (8 fixture records, `nth = 3`),
query `range 2 2`, one selected record. -/
theorem range_soundness_witness :
    ∃ r, (FastqIndex.from_reader recs8 3).range 2 2 = some r ∧
      r.selected_records = 2 - 2 + 1 :=
  range_soundness recs8 3 2 2 (by decide) (by decide) (by decide) (by decide)

/-- Claim C7: on any index built by the build algorithm, for every query that
`range` accepts (returns `some r`), the modulo formulation of
`leading_records`, `(start - 1) % nth` (with the clamped start
`max 1 start`), agrees with the subtractive formulation
`start - last_total - 1`, where `last_total` is the `total_records` of the
last entry strictly below the start — including when the start falls inside
the final short chunk. -/
theorem leading_mod_eq_sub (records : List FastqRecord) (nth s e : Nat)
    (r : FastqIndexRange) (hnth : 0 < nth)
    (h : (FastqIndex.from_reader records nth).range s e = some r) :
    r.leading_records = (max 1 s - 1) % nth ∧
    r.leading_records =
      max 1 s - lastTotalBelow (FastqIndex.from_reader records nth).entries (max 1 s) - 1 := by
  obtain ⟨hn1, hn2, hn3, hcore⟩ := range_some_norm _ s e r h
  obtain ⟨p, hE, heq, h1, h2, h3, h4, h5⟩ :=
    range_built_spec records nth (max 1 s)
      (min (FastqIndex.from_reader records nth).total_records e) hnth hn1 hn2
      (by rw [← from_reader_total]; exact hn3)
  rw [heq] at hcore
  have hr : r = ⟨p.total_bytes, hE.total_bytes, (max 1 s - 1) % nth,
      hE.total_records - min (FastqIndex.from_reader records nth).total_records e,
      hE.total_records - p.total_records⟩ := ((Option.some.injEq _ _).mp hcore).symm
  subst hr
  refine ⟨rfl, ?_⟩
  dsimp only
  rw [h3, h5]

/-- Witness for C7: query `range 8 8` on the §8.3 index (the final chunk is
short: records 7 and 8 only); both formulations give `leading_records = 1`. -/
theorem leading_mod_eq_sub_witness :
    (⟨204, 272, 1, 0, 2⟩ : FastqIndexRange).leading_records = (max 1 8 - 1) % 3 ∧
    (⟨204, 272, 1, 0, 2⟩ : FastqIndexRange).leading_records =
      max 1 8 - lastTotalBelow (FastqIndex.from_reader recs8 3).entries (max 1 8) - 1 :=
  leading_mod_eq_sub recs8 3 8 8 ⟨204, 272, 1, 0, 2⟩ (by decide)
    (by rw [FastqIndex.range.eq_def]; decide)

/-- Claim C10: on any index built by `from_reader`, whenever `range` returns
`some r`, the result satisfies `leading_records + trailing_records ≤
total_records` and `start_byte ≤ end_byte`, so the u64 subtractions inside
`selected_records` and `num_bytes` cannot underflow. -/
theorem range_no_underflow (records : List FastqRecord) (nth s e : Nat)
    (r : FastqIndexRange) (hnth : 0 < nth)
    (h : (FastqIndex.from_reader records nth).range s e = some r) :
    r.leading_records + r.trailing_records ≤ r.total_records ∧
      r.start_byte ≤ r.end_byte := by
  obtain ⟨hn1, hn2, hn3, hcore⟩ := range_some_norm _ s e r h
  obtain ⟨p, hE, heq, h1, h2, h3, h4, h5⟩ :=
    range_built_spec records nth (max 1 s)
      (min (FastqIndex.from_reader records nth).total_records e) hnth hn1 hn2
      (by rw [← from_reader_total]; exact hn3)
  rw [heq] at hcore
  have hr : r = ⟨p.total_bytes, hE.total_bytes, (max 1 s - 1) % nth,
      hE.total_records - min (FastqIndex.from_reader records nth).total_records e,
      hE.total_records - p.total_records⟩ := ((Option.some.injEq _ _).mp hcore).symm
  subst hr
  dsimp only
  constructor
  · rw [h3]
    omega
  · exact h4

/-- Witness for C10: query `range 2 4` on the §8.3 index. -/
theorem range_no_underflow_witness :
    (⟨0, 204, 1, 2, 6⟩ : FastqIndexRange).leading_records +
        (⟨0, 204, 1, 2, 6⟩ : FastqIndexRange).trailing_records ≤
        (⟨0, 204, 1, 2, 6⟩ : FastqIndexRange).total_records ∧
      (⟨0, 204, 1, 2, 6⟩ : FastqIndexRange).start_byte ≤
        (⟨0, 204, 1, 2, 6⟩ : FastqIndexRange).end_byte :=
  range_no_underflow recs8 3 2 4 ⟨0, 204, 1, 2, 6⟩ (by decide)
    (by rw [FastqIndex.range.eq_def]; decide)

/-! ### Claim C8: persist/load round-trip of the `.fqi` index -/

theorem leVal_u64le (x : Nat) (hx : x < 18446744073709551616) :
    leVal (x % 256) (x / 256 % 256) (x / 65536 % 256) (x / 16777216 % 256)
      (x / 4294967296 % 256) (x / 1099511627776 % 256)
      (x / 281474976710656 % 256) (x / 72057594037927936 % 256) = x := by
  unfold leVal
  omega

theorem read_entriesGo_write (es : List FastqIndexEntry)
    (hb : ∀ x ∈ es, x.total_records < 18446744073709551616 ∧
      x.total_bytes < 18446744073709551616) :
    ∀ acc, read_entriesGo (writeEntries es) acc = some (acc ++ es) := by
  induction es with
  | nil => intro acc; simp [writeEntries, read_entriesGo]
  | cons e es2 ih =>
    intro acc
    obtain ⟨h1, h2⟩ := hb e (by simp)
    simp only [writeEntries, u64le, List.cons_append, List.nil_append, read_entriesGo,
      List.append_eq]
    rw [leVal_u64le _ h1, leVal_u64le _ h2,
      ih (fun x hx => hb x (List.mem_cons_of_mem _ hx))]
    simp

/-- Claim C8 (round-trip): for every valid `FastqIndex` (all fields in u64
range), reading back the byte stream written by `FastqIndex::write` yields
the same index: same `total_records`, `nth` and entry sequence. -/
theorem write_read_roundtrip (idx : FastqIndex)
    (ht : idx.total_records < 18446744073709551616)
    (hn : idx.nth < 18446744073709551616)
    (hes : ∀ x ∈ idx.entries, x.total_records < 18446744073709551616 ∧
      x.total_bytes < 18446744073709551616) :
    FastqIndex.read (FastqIndex.write idx) = some idx := by
  obtain ⟨t, n, es⟩ := idx
  simp only [FastqIndex.write, u64le, List.cons_append, List.nil_append, FastqIndex.read]
  rw [read_entriesGo_write es hes []]
  simp only [Option.map]
  rw [leVal_u64le t ht, leVal_u64le n hn]
  simp

/-- Witness for C8: round-trip of the concrete §8.3 index. -/
theorem write_read_roundtrip_witness :
    FastqIndex.read (FastqIndex.write ⟨8, 3, [⟨0, 0⟩, ⟨3, 102⟩, ⟨6, 204⟩, ⟨8, 272⟩]⟩) =
      some ⟨8, 3, [⟨0, 0⟩, ⟨3, 102⟩, ⟨6, 204⟩, ⟨8, 272⟩]⟩ :=
  write_read_roundtrip ⟨8, 3, [⟨0, 0⟩, ⟨3, 102⟩, ⟨6, 204⟩, ⟨8, 272⟩]⟩
    (by decide) (by decide) (by decide)

/-! ### Claim C2: the priming of the block-streaming reader -/

theorem primeLoop_spec (nb : Nat) (hnb : 0 < nb) (blocks : List (List Nat)) :
    (∀ b ∈ blocks, b ≠ []) → 64 ∈ blocks.flatten →
    ∀ pd, ∃ s, primeLoop nb blocks pd = some s ∧
      s.num_blocks_left = nb ∧
      s.uncompressed_data.drop s.uncompressed_data_index ++ s.blocks.flatten =
        blocks.flatten.dropWhile (fun x => x != 64) ∧
      s.uncompressed_data.get? s.uncompressed_data_index = some 64 := by
  induction blocks with
  | nil =>
    intro _ h64
    simp at h64
  | cons b rest ih =>
    intro hne h64 pd
    have hbne : b ≠ [] := hne b (by simp)
    have hblen : ¬ b.length = 0 := by simpa using hbne
    by_cases hfound : (b.takeWhile (fun x => x != 64)).length < b.length
    · refine ⟨⟨rest, b, (b.takeWhile (fun x => x != 64)).length, nb⟩, ?_, rfl, ?_, ?_⟩
      · simp only [primeLoop]
        rw [if_neg (by omega), if_neg hblen, if_pos hfound]
      · dsimp only
        rw [drop_length_takeWhile, List.flatten_cons, dropWhile_append_lt _ _ _ hfound]
      · obtain ⟨x, hx, hpx⟩ := takeWhile_lt_get _ _ hfound
        dsimp only
        rw [hx]
        have hx64 : x = 64 := by simpa using hpx
        rw [hx64]
    · have hall : ∀ x ∈ b, (fun x => x != 64) x = true := takeWhile_full_all _ _ hfound
      have h64r : 64 ∈ rest.flatten := by
        rw [List.flatten_cons] at h64
        rcases List.mem_append.mp h64 with h | h
        · exfalso
          have hb2 := hall 64 h
          simp at hb2
        · exact h
      obtain ⟨s, hs1, hs2, hs3, hs4⟩ := ih (fun x hx => hne x (by simp [hx])) h64r b
      refine ⟨s, ?_, hs2, ?_, hs4⟩
      · simp only [primeLoop]
        rw [if_neg (by omega), if_neg hblen, if_neg hfound]
        exact hs1
      · rw [List.flatten_cons, dropWhile_append_all _ _ _ hall]
        exact hs3

/-- Claim C2 (amended): the constructor does not prime by uncompressed
position; it scans for the record marker byte.  With a positive block budget
and no empty block, construction leaves the cursor on the first `@` (64) of
the decoded stream: every byte before the first `@` is skipped, and the first
byte the reader serves is that `@` — not, in general, the byte at
uncompressed offset `start_byte`. -/
theorem prime_lands_on_first_at (blocks : List (List Nat)) (num_blocks : Nat)
    (hnb : 0 < num_blocks) (hne : ∀ b ∈ blocks, b ≠ []) (h64 : 64 ∈ blocks.flatten) :
    ∃ s, BgzfReader.new blocks num_blocks = some s ∧
      s.num_blocks_left = num_blocks ∧
      s.uncompressed_data.drop s.uncompressed_data_index ++ s.blocks.flatten =
        blocks.flatten.dropWhile (fun x => x != 64) ∧
      s.uncompressed_data.get? s.uncompressed_data_index = some 64 :=
  primeLoop_spec num_blocks hnb blocks hne h64 []

/-- Witness for the amended C2 at a concrete input: one block `[65, 64, 66]`,
budget 1. -/
theorem prime_lands_on_first_at_witness :
    ∃ s, BgzfReader.new [[65, 64, 66]] 1 = some s ∧
      s.num_blocks_left = 1 ∧
      s.uncompressed_data.drop s.uncompressed_data_index ++ s.blocks.flatten =
        [[65, 64, 66]].flatten.dropWhile (fun x => x != 64) ∧
      s.uncompressed_data.get? s.uncompressed_data_index = some 64 :=
  prime_lands_on_first_at [[65, 64, 66]] 1 (by decide) (by decide) (by decide)

/-- Counterexample to C2 as stated.  Take a `.gzi` entry with
`uncompressed_offset = 0`, one decoded block `[65, 64, 66, 67]` and
`start_byte = 2`.  The claim says construction advances the logical position
from the entry offset to `start_byte`, so the first byte served would be the
byte at uncompressed offset 2, namely 66.  The code scans for `@` (64)
instead and serves 64 (the byte at offset 1). -/
theorem prime_not_at_start_byte_cex :
    (BgzfReader.new [[65, 64, 66, 67]] 1).bind
        (fun s => (BgzfReaderState.read 1 s).map Prod.fst) = some [64] ∧
      ([[65, 64, 66, 67]].flatten.drop 2).take 1 = [66] ∧
      some [64] ≠ some ([66] : List Nat) := by
  decide

/-! ### Claim C3: the bytes persisted by the `index` subcommand -/

theorem u64le_length (n : Nat) : (u64le n).length = 8 := rfl

theorem indexRunGo_eq (nth : Nat) (rs : List FastqRecord) :
    ∀ (nr tb : Nat),
      indexRunGo nth rs nr tb =
        ((indexRunEntries nth rs nr tb).map (fun q => u64le q.1 ++ u64le q.2)).flatten := by
  induction rs with
  | nil => intro nr tb; simp [indexRunGo, indexRunEntries]
  | cons r rs ih =>
    intro nr tb
    simp only [indexRunGo, indexRunEntries, List.map_append, List.flatten_append, ih]
    by_cases h : nr % nth = 0 <;> simp [h, List.append_assoc]

theorem pairs_flatten_length (l : List (Nat × Nat)) :
    ((l.map (fun q => u64le q.1 ++ u64le q.2)).flatten).length = 16 * l.length := by
  induction l with
  | nil => rfl
  | cons q l ih =>
    simp only [List.map_cons, List.flatten_cons, List.length_append, List.length_cons,
      u64le_length, ih]
    omega

theorem writeEntries_length (es : List FastqIndexEntry) :
    (writeEntries es).length = 16 * es.length := by
  induction es with
  | nil => rfl
  | cons e es ih =>
    simp only [writeEntries, List.length_append, List.length_cons, u64le_length, ih]
    omega

/-- Claim C3 (amended): the `.fqi` file persisted by the `index` subcommand
contains no `total_records`/`nth` header: it is exactly the checkpoint and
end-cap pairs, two u64 LE each, for a size of `16 × entries.len()` bytes.
`FastqIndex::write`, by contrast, does write `total_records` and `nth` before
the entries, for a size of `16 + 16 × entries.len()` bytes. -/
theorem indexRun_persist_format (records : List FastqRecord) (nth : Nat)
    (idx : FastqIndex) (hnth : 1 ≤ nth) :
    indexRunBytes records nth =
      ((indexRunEntries nth records 0 0).map (fun q => u64le q.1 ++ u64le q.2)).flatten ∧
    (indexRunBytes records nth).length = 16 * (indexRunEntries nth records 0 0).length ∧
    (FastqIndex.write idx).length = 16 + 16 * idx.entries.length := by
  refine ⟨indexRunGo_eq nth records 0 0, ?_, ?_⟩
  · rw [indexRunBytes, indexRunGo_eq]
    exact pairs_flatten_length _
  · simp only [FastqIndex.write, List.length_append, u64le_length, writeEntries_length]

/-- Witness for the amended C3 at the single-record input and, for the
`FastqIndex::write` part, at a two-entry index. -/
theorem indexRun_persist_format_witness :
    indexRunBytes [recComment] 1 =
      ((indexRunEntries 1 [recComment] 0 0).map (fun q => u64le q.1 ++ u64le q.2)).flatten ∧
    (indexRunBytes [recComment] 1).length = 16 * (indexRunEntries 1 [recComment] 0 0).length ∧
    (FastqIndex.write ⟨1, 1, [⟨0, 0⟩, ⟨1, 9⟩]⟩).length =
      16 + 16 * (FastqIndex.mk 1 1 [⟨0, 0⟩, ⟨1, 9⟩]).entries.length :=
  indexRun_persist_format [recComment] 1 ⟨1, 1, [⟨0, 0⟩, ⟨1, 9⟩]⟩ (by decide)

/-- Counterexample to C3 as stated: indexing the single 16-byte record
`@r\nA\n+comment\nI\n` with stride `nth = 1` makes the `index` subcommand
write the two pairs (0, 0) and (1, 9) and nothing else — 32 bytes.  Under
the claimed format the file would open with `total_records` (u64le 1, not
u64le 0) and have size `16 + 16 × 2 = 48`. -/
theorem indexRun_no_header_cex :
    (indexRunBytes [recComment] 1).length = 32 ∧
    (indexRunBytes [recComment] 1).take 8 = u64le 0 ∧
    u64le 0 ≠ u64le 1 ∧
    (32 : Nat) ≠ 16 + 16 * 2 := by
  decide

/-! ### Claim C9: exact byte measurement in `from_reader` -/

/-- Counterexample to C9 as stated: the field-sum estimate of the code
(`record_to_num_bytes`, the same formula is inlined in `index.rs`) for the
record parsed from `@r\nA\n+comment\nI\n` is 9, not the 7 the claim quotes. -/
theorem field_sum_not_seven_cex :
    FastqIndex.record_to_num_bytes recComment = 9 ∧ (9 : Nat) ≠ 7 := by
  decide

/-- Claim C9 (amended): `from_reader` measures each record by serializing it
unchanged into the byte-counting sink, never by summing its fields; indexing
`@r\nA\n+comment\nI\n` records exactly 16 bytes (the length of the unchanged
serialization) in the `.fqi`, not the field-sum estimate of 9. -/
theorem from_reader_exact_bytes :
    (FastqIndex.from_reader [recComment] 1).entries =
      [⟨0, 0⟩, ⟨1, (writeUnchangedBytes recComment).length⟩] ∧
    (writeUnchangedBytes recComment).length = 16 ∧
    FastqIndex.record_to_num_bytes recComment = 9 := by
  decide

/-! ### Claims C4, C5: the fill budget and end-of-file handling of the
streaming reader -/

/-- Claim C4 at its failing input: a reader with block budget `num_blocks =
1` over two remaining blocks `[1]` and `[2]`.  The first `fill` decodes block
`[1]` and leaves `num_blocks_left` at 1 — the code never decrements it — and
after that byte is consumed a second `fill` succeeds and decodes block `[2]`:
two blocks decoded under a budget of one. -/
theorem fill_never_decrements :
    BgzfReaderState.fill ⟨[[1], [2]], [], 0, 1⟩ =
      Except.ok (1, ⟨[[2]], [1], 0, 1⟩) ∧
    BgzfReaderState.fill ⟨[[2]], [1], 1, 1⟩ =
      Except.ok (1, ⟨[], [2], 0, 1⟩) :=
  ⟨rfl, rfl⟩

/-- Claim C5 at its failing input: with the compressed stream exhausted (the
block-header read hits end-of-file), an empty buffer and a positive block
budget, `fill` propagates the `UnexpectedEof` as an error instead of
returning 0, and `read` then indexes past the end of the empty buffer and
aborts (modelled `none`) instead of returning the bytes already served —
losing even a byte it had already taken from the buffer. -/
theorem fill_eof_errors :
    BgzfReaderState.fill ⟨[], [], 0, 1⟩ = Except.error () ∧
    BgzfReaderState.read 1 ⟨[], [], 0, 1⟩ = none ∧
    BgzfReaderState.read 2 ⟨[], [7], 0, 1⟩ = none :=
  ⟨rfl, rfl, rfl⟩

/-! ### Claim C6: locating the block range in the `.gzi` -/

/-- Claim C6 at its failing input.  `.gzi` entries (with the synthetic head)
(0,0), (10,100), (20,200), (30,1000); the `.fqi` range has `start_byte =
200` and `end_byte = 1000`, so `num_bytes = 800`.  The claim selects
`start_entry = (20, 200)` — the maximal `uncompressed_offset ≤ 200` — and
counts `num_blocks = 2` from it up to the first entry with offset ≥ 1000.
The code returns `start_entry = (10, 100)`, because its comparison is strict
and skips the entry at exactly 200, and `num_blocks = 4`, counted from the
start of the index with the stop test against `num_bytes` instead of
`end_byte`. -/
theorem runLocateBlocks_cex :
    runLocateBlocks [⟨0, 0⟩, ⟨10, 100⟩, ⟨20, 200⟩, ⟨30, 1000⟩] 200 800 =
      (⟨10, 100⟩, 4) ∧
    (⟨20, 200⟩ : BgzfIndexOffset) ∈
      [⟨0, 0⟩, ⟨10, 100⟩, ⟨20, 200⟩, (⟨30, 1000⟩ : BgzfIndexOffset)] ∧
    (⟨20, 200⟩ : BgzfIndexOffset).uncompressed_offset ≤ 200 ∧
    (⟨10, 100⟩ : BgzfIndexOffset) ≠ ⟨20, 200⟩ ∧
    (4 : Nat) ≠ 2 := by
  decide
